import Mathlib

/-!
Verification of the hierarchical adaptive softmax of `model.py` / `main.py`
(classes `AdaptiveSoftmax` and `AdaptiveLoss`, plus the way `main.py` wires
them together).  Tensors are embedded row-wise: a hidden vector is a function
`ℕ → ℝ` (entries past the row length are irrelevant), a batch is a `List` of
rows, and integer target tensors are `List ℕ`.  In-place tensor mutation
(`add_`, `copy_`) is embedded as a fold of pure overwrites, and the
fallible loss path (`assert`, `try/except`) returns `Except`.
-/

namespace Nets

/-- Python `cutoff[i]` for a cutoff list; out-of-range reads never occur in the
verified paths, `0` is an arbitrary default. -/
def cGet (cutoff : List ℕ) (i : ℕ) : ℕ := cutoff.getD i 0

/-- Number of tail clusters: the loops in `set_target`, `remap_target` and the
tail construction all run over `range(len(cutoff) - 1)`. -/
def nClusters (cutoff : List ℕ) : ℕ := cutoff.length - 1

/-- The spec's invariant on a full cutoff list `[c0, ..., V]`:
`0 < c0 < c1 < ... < V`. -/
def ValidCutoffs (cutoff : List ℕ) : Prop :=
  2 ≤ cutoff.length ∧ 0 < cGet cutoff 0 ∧
    ∀ i < cutoff.length - 1, cGet cutoff i < cGet cutoff (i + 1)

instance (cutoff : List ℕ) : Decidable (ValidCutoffs cutoff) := by
  unfold ValidCutoffs; infer_instance

/-- The per-cluster membership test `target.ge(self.cutoff[i]).mul(target.lt(self.cutoff[i+1]))`
shared by `AdaptiveSoftmax.set_target` and `AdaptiveLoss.remap_target`. -/
def clusterMask (cutoff : List ℕ) (i x : ℕ) : Bool :=
  decide (cGet cutoff i ≤ x) && decide (x < cGet cutoff (i + 1))

/-- `AdaptiveSoftmax.set_target` for cluster `i`: the ordered list of batch
positions whose target falls in `[cutoff[i], cutoff[i+1])`
(`mask.float().nonzero().squeeze(1)` lists positions in increasing order). -/
def selIdx (cutoff : List ℕ) (t : List ℕ) (i : ℕ) : List ℕ :=
  (List.range t.length).filter (fun p => clusterMask cutoff i (t.getD p 0))

/-- One pass of the loop body `new_target[0][mask] = self.cutoff[0] + i` in
`AdaptiveLoss.remap_target`: positions masked by cluster `i` (mask taken on the
original targets) are overwritten with the head id `cutoff[0] + i`. -/
def remapStep (cutoff : List ℕ) (t : List ℕ) (acc : List ℕ) (i : ℕ) : List ℕ :=
  List.zipWith (fun x cur => if clusterMask cutoff i x then cGet cutoff 0 + i else cur) t acc

/-- `new_target[0]` of `AdaptiveLoss.remap_target`: the cloned target vector
after all cluster passes overwrote routed positions with head ids. -/
def remapHead (cutoff : List ℕ) (t : List ℕ) : List ℕ :=
  (List.range (nClusters cutoff)).foldl (remapStep cutoff t) t

/-- `new_target[1:]` of `AdaptiveLoss.remap_target`: for each cluster, the
in-order local ids `target[mask].add(-cutoff[i])`, or `None` when the mask is
empty. -/
def remapLocals (cutoff : List ℕ) (t : List ℕ) : List (Option (List ℕ)) :=
  (List.range (nClusters cutoff)).map (fun i =>
    let sel := t.filter (fun x => clusterMask cutoff i x)
    if sel.isEmpty then none else some (sel.map (fun x => x - cGet cutoff i)))

/-- `AdaptiveLoss.remap_target`: the remapped head targets together with the
per-cluster local-id lists. -/
def remapTarget (cutoff : List ℕ) (t : List ℕ) : List ℕ × List (Option (List ℕ)) :=
  (remapHead cutoff t, remapLocals cutoff t)

/-- `AdaptiveSoftmax.__init__` modelled at the level of layer-size validity:
it performs no explicit cutoff validation, so construction succeeds exactly
when every requested `nn.Linear` dimension is non-negative.  The head has
`cutoff[0] + len(cutoff) - 1` outputs (non-negative for `ℕ` cutoffs) and tail
`i` has `cutoff[i+1] - cutoff[i]` outputs, a Python subtraction that is
negative — and only then raises at layer construction — iff
`cutoff[i+1] < cutoff[i]`.  Zero-sized layers construct without error. -/
def initOK (cutoff : List ℕ) : Bool :=
  decide (∀ i < cutoff.length - 1, cGet cutoff i ≤ cGet cutoff (i + 1))

/-- A tensor row: entries are indexed by `ℕ`, entries past the row's logical
width are irrelevant to every computation below. -/
def Vec : Type := ℕ → ℝ

/-- The all-zero row, used as an out-of-range default. -/
noncomputable def zeroVec : Vec := fun _ => 0

/-- Dot product of the first `n` entries, the core of `nn.Linear`. -/
noncomputable def dotRange (n : ℕ) (w x : Vec) : ℝ :=
  ∑ k in Finset.range n, w k * x k

/-- `self.output_size = cutoff[0] + len(cutoff) - 1`. -/
def outputSize (cutoff : List ℕ) : ℕ := cGet cutoff 0 + nClusters cutoff

/-- The `AdaptiveSoftmax` module: its configuration plus the learned weights
of the head layer (`nn.Linear(nhid, output_size)`) and of each two-layer
bias-free tail `nn.Linear(nhid, nhid // 4**i)` then
`nn.Linear(nhid // 4**i, cutoff[i+1] - cutoff[i])`. -/
structure AdaptiveSoftmax where
  nhid : ℕ
  cutoff : List ℕ
  headW : ℕ → Vec
  headB : Vec
  tailW1 : ℕ → ℕ → Vec
  tailW2 : ℕ → ℕ → Vec

/-- Head logits for one hidden row: `self.head(input)`. -/
noncomputable def headOut (m : AdaptiveSoftmax) (h : Vec) : Vec :=
  fun j => dotRange m.nhid (m.headW j) h + m.headB j

/-- Tail-`i` logits for one hidden row: `self.tail[i](input)`, the two
bias-free linear layers composed. -/
noncomputable def tailOut (m : AdaptiveSoftmax) (i : ℕ) (h : Vec) : Vec :=
  fun j => dotRange (m.nhid / 4 ^ i) (m.tailW2 i j)
    (fun k => dotRange m.nhid (m.tailW1 i k) h)

/-- `nn.LogSoftmax` over the first `n` entries of a row. -/
noncomputable def logSoftmax (n : ℕ) (x : Vec) : Vec :=
  fun j => x j - Real.log (∑ k in Finset.range n, Real.exp (x k))

/-- `lsm(self.head(input))` for one row. -/
noncomputable def headLsm (m : AdaptiveSoftmax) (h : Vec) : Vec :=
  logSoftmax (outputSize m.cutoff) (headOut m h)

/-- `lsm(self.tail[i](input))` for one row. -/
noncomputable def tailLsm (m : AdaptiveSoftmax) (i : ℕ) (h : Vec) : Vec :=
  logSoftmax (cGet m.cutoff (i + 1) - cGet m.cutoff i) (tailOut m i h)

/-- The probability buffer of `log_prob` after
`prob.narrow(1, 0, self.output_size).add_(lsm_head...)`: zeros everywhere
except the first `output_size` columns, which hold the head log-softmax. -/
noncomputable def probInit (m : AdaptiveSoftmax) (h : Vec) : Vec :=
  fun j => if j < outputSize m.cutoff then headLsm m h j else 0

/-- The column range `[cutoff[i], cutoff[i] + (cutoff[i+1] - cutoff[i]))`
addressed by `prob.narrow(1, pos, i_size)` for cluster `i`. -/
def inWriteRange (cutoff : List ℕ) (i j : ℕ) : Prop :=
  cGet cutoff i ≤ j ∧ j < cGet cutoff i + (cGet cutoff (i + 1) - cGet cutoff i)

instance (cutoff : List ℕ) (i j : ℕ) : Decidable (inWriteRange cutoff i j) := by
  unfold inWriteRange; infer_instance

/-- One iteration of the cluster loop of `log_prob`:
`prob.narrow(1, pos, i_size).copy_(buffer).add_(lsm_tail)` overwrites the
cluster's columns with the broadcast head log-probability of the cluster's
routing token plus the tail log-softmax at the local offset. -/
noncomputable def clusterWrite (m : AdaptiveSoftmax) (h : Vec) (p : Vec) (i : ℕ) : Vec :=
  fun j => if inWriteRange m.cutoff i j then
      headLsm m h (cGet m.cutoff 0 + i) + tailLsm m i h (j - cGet m.cutoff i)
    else p j

/-- `AdaptiveSoftmax.log_prob` for one row of the batch: the initial buffer
followed by the cluster writes in loop order. -/
noncomputable def logProbRow (m : AdaptiveSoftmax) (h : Vec) : Vec :=
  (List.range (nClusters m.cutoff)).foldl (clusterWrite m h) (probInit m h)

/-- `AdaptiveSoftmax.log_prob` on a batch: every row is computed
independently by the row-parallel tensor operations. -/
noncomputable def logProbMat (m : AdaptiveSoftmax) (hs : List Vec) : List Vec :=
  hs.map (logProbRow m)

/-- A logits matrix as passed to `nn.CrossEntropyLoss`: its number of classes
(`size(1)`) and its rows. -/
structure Mat where
  ncols : ℕ
  rows : List Vec

/-- `AdaptiveSoftmax.set_target` followed by `AdaptiveSoftmax.forward`: the
head logits over the whole batch, then for each cluster either `None` (no
routed targets) or the tail logits of the rows selected by `set_target`. -/
noncomputable def asForward (m : AdaptiveSoftmax) (hs : List Vec) (t : List ℕ) :
    List (Option Mat) :=
  Option.some ⟨outputSize m.cutoff, hs.map (headOut m)⟩ ::
    (List.range (nClusters m.cutoff)).map (fun i =>
      let sel := selIdx m.cutoff t i
      if sel.isEmpty then none
      else some ⟨cGet m.cutoff (i + 1) - cGet m.cutoff i,
        sel.map (fun p => tailOut m i (hs.getD p zeroVec))⟩)

/-- How a loss-path slot can fail: `fatal` is an uncaught exception
(`AssertionError`, `IndexError` on `target[i]`, `.min()` on `None` or an
empty tensor), `pdbTrap` is an exception raised inside
`self.criterion(...)`, caught by the bare `except` and routed into
`pdb.set_trace()` instead of propagating. -/
inductive LossErr where
  | fatal : LossErr
  | pdbTrap : LossErr

/-- `self.criterion(input[i], target[i])` with
`nn.CrossEntropyLoss(size_average=False)`: the summed negative log-softmax of
each row at its target class; any shape mismatch or out-of-range class index
raises (and is then caught by the bare `except`). -/
noncomputable def criterionSum (M : Mat) (ts : List ℕ) : Except LossErr ℝ :=
  if M.rows.length = ts.length ∧ ∀ x ∈ ts, x < M.ncols then
    Except.ok (((M.rows.zip ts).map (fun rt => -(logSoftmax M.ncols rt.1 rt.2))).sum)
  else Except.error LossErr.pdbTrap

/-- One iteration of the loop in `AdaptiveLoss.forward`: `None` inputs are
skipped (contributing nothing and never touching `target[i]`); otherwise the
`assert(target[i].min() >= 0 and target[i].max() <= input[i].size(1))` runs
(note the `<=`), and then the guarded criterion call. -/
noncomputable def evalSlot : Option Mat → Option (List ℕ) → Except LossErr ℝ
  | Option.none, _ => Except.ok 0
  | Option.some _, Option.none => Except.error LossErr.fatal
  | Option.some M, Option.some ts =>
      if ts.isEmpty then Except.error LossErr.fatal
      else if ts.foldr max 0 ≤ M.ncols then criterionSum M ts
      else Except.error LossErr.fatal

/-- The accumulation loop of `AdaptiveLoss.forward` from slot index `n`
onwards: `target[i]` is read by position from the remapped target list. -/
noncomputable def slotSum (tgts : List (Option (List ℕ))) :
    List (Option Mat) → ℕ → Except LossErr ℝ
  | [], _ => Except.ok 0
  | slot :: rest, n => do
      let v ← evalSlot slot (tgts.getD n none)
      let w ← slotSum tgts rest (n + 1)
      pure (v + w)

/-- `AdaptiveLoss.forward`: batch size from `input[0].size(0)`, targets
remapped with the loss's own cutoffs, the accumulated criterion sum, and the
final division by the batch size. -/
noncomputable def adaptiveLossForward (lossCutoff : List ℕ)
    (input : List (Option Mat)) (t : List ℕ) : Except LossErr ℝ :=
  match input with
  | Option.some M0 :: _ =>
      let rt := remapTarget lossCutoff t
      (slotSum (Option.some rt.1 :: rt.2) input 0).map
        (fun s => s / (M0.rows.length : ℝ))
  | _ => Except.error LossErr.fatal

/-- The adaptive-softmax training step of `main.py`: the decoder is scored
with `set_target`/`forward` on the targets, and the result fed to the
`AdaptiveLoss` criterion (constructed there with its own cutoff list). -/
noncomputable def trainStep (m : AdaptiveSoftmax) (lossCutoff : List ℕ)
    (hs : List Vec) (t : List ℕ) : Except LossErr ℝ :=
  adaptiveLossForward lossCutoff (asForward m hs t) t

/-- The comparison quantity named by the spec for head-band batches (built
from the spec's words, not from the source): plain mean cross-entropy
computed directly on the first `c0` columns of the head logits against the
raw targets. -/
noncomputable def specPlainHeadCE (m : AdaptiveSoftmax) (hs : List Vec) (t : List ℕ) : ℝ :=
  (((hs.map (headOut m)).zip t).map
    (fun rt => -(logSoftmax (cGet m.cutoff 0) rt.1 rt.2))).sum / (hs.length : ℝ)

/-- Consecutive cutoffs strictly increase. -/
theorem cGet_lt_succ {cutoff : List ℕ} (hv : ValidCutoffs cutoff) {i : ℕ}
    (hi : i < nClusters cutoff) : cGet cutoff i < cGet cutoff (i + 1) :=
  hv.2.2 i hi

/-- Cutoffs strictly increase over index pairs up to the last entry. -/
theorem cGet_lt {cutoff : List ℕ} (hv : ValidCutoffs cutoff) :
    ∀ {i j : ℕ}, i < j → j ≤ nClusters cutoff → cGet cutoff i < cGet cutoff j := by
  intro i j
  induction j with
  | zero => intro h _; exact absurd h (Nat.not_lt_zero i)
  | succ j ih =>
      intro hij hj
      rcases Nat.lt_succ_iff_lt_or_eq.mp hij with h | h
      · exact lt_trans (ih h (le_of_lt (Nat.lt_of_lt_of_le (Nat.lt_succ_self j) hj)))
          (cGet_lt_succ hv (Nat.lt_of_succ_le hj))
      · subst h; exact cGet_lt_succ hv (Nat.lt_of_succ_le hj)

/-- Cutoffs are monotone over index pairs up to the last entry. -/
theorem cGet_le {cutoff : List ℕ} (hv : ValidCutoffs cutoff) {i j : ℕ}
    (hij : i ≤ j) (hj : j ≤ nClusters cutoff) : cGet cutoff i ≤ cGet cutoff j := by
  rcases Nat.lt_or_ge i j with h | h
  · exact le_of_lt (cGet_lt hv h hj)
  · have hij' : i = j := le_antisymm hij h
    subst hij'; exact le_refl _

/-- Every id in `[c0, V)` lies in some cluster's membership range. -/
theorem cluster_exists {cutoff : List ℕ} (hv : ValidCutoffs cutoff) {x : ℕ}
    (hlo : cGet cutoff 0 ≤ x) (hhi : x < cGet cutoff (nClusters cutoff)) :
    ∃ i, i < nClusters cutoff ∧ clusterMask cutoff i x = true := by
  have hK : 1 ≤ nClusters cutoff := by
    have := hv.1; unfold nClusters; omega
  have main : ∀ n, 1 ≤ n → n ≤ nClusters cutoff → x < cGet cutoff n →
      ∃ i, i < nClusters cutoff ∧ clusterMask cutoff i x = true := by
    intro n
    induction n with
    | zero => intro h; omega
    | succ n ih =>
        intro _ hn hx
        rcases Nat.eq_zero_or_pos n with h0 | h1
        · subst h0
          exact ⟨0, Nat.lt_of_succ_le hn, by
            unfold clusterMask; simp [hlo, hx]⟩
        · rcases Nat.lt_or_ge x (cGet cutoff n) with h | h
          · exact ih h1 (le_trans (Nat.le_succ n) hn) h
          · exact ⟨n, Nat.lt_of_succ_le hn, by
              unfold clusterMask; simp [h, hx]⟩
  exact main (nClusters cutoff) hK le_rfl hhi

/-- Unfolding of the membership test. -/
theorem clusterMask_iff (cutoff : List ℕ) (i x : ℕ) :
    clusterMask cutoff i x = true ↔ cGet cutoff i ≤ x ∧ x < cGet cutoff (i + 1) := by
  unfold clusterMask; simp

/-- Two distinct clusters never both contain an id. -/
theorem cluster_unique {cutoff : List ℕ} (hv : ValidCutoffs cutoff) {x i j : ℕ}
    (hi : i < nClusters cutoff) (hj : j < nClusters cutoff)
    (hmi : clusterMask cutoff i x = true) (hmj : clusterMask cutoff j x = true) :
    i = j := by
  rcases (clusterMask_iff cutoff i x).mp hmi with ⟨hi1, hi2⟩
  rcases (clusterMask_iff cutoff j x).mp hmj with ⟨hj1, hj2⟩
  by_contra hne
  rcases Nat.lt_or_ge i j with h | h
  · have h1 : cGet cutoff (i + 1) ≤ cGet cutoff j :=
      cGet_le hv (Nat.succ_le_of_lt h) (le_of_lt hj)
    omega
  · have h' : j < i := Nat.lt_of_le_of_ne h (fun e => hne e.symm)
    have h1 : cGet cutoff (j + 1) ≤ cGet cutoff i :=
      cGet_le hv (Nat.succ_le_of_lt h') (le_of_lt hi)
    omega

/-- Ids below the head band are in no cluster. -/
theorem clusterMask_head {cutoff : List ℕ} (hv : ValidCutoffs cutoff) {x i : ℕ}
    (hi : i < nClusters cutoff) (hx : x < cGet cutoff 0) :
    clusterMask cutoff i x = false := by
  rw [Bool.eq_false_iff]
  intro hm
  rcases (clusterMask_iff cutoff i x).mp hm with ⟨h1, _⟩
  have : cGet cutoff 0 ≤ cGet cutoff i := cGet_le hv (Nat.zero_le i) (le_of_lt hi)
  omega

/-- C7: for valid cutoffs `[c0, ..., V]`, the membership tests used by
`set_target` and `remap_target` partition `[c0, V)`: every id there satisfies
the test of exactly one cluster index, with no overlaps and no gaps. -/
theorem C7_cluster_partition {cutoff : List ℕ} (hv : ValidCutoffs cutoff) {x : ℕ}
    (hlo : cGet cutoff 0 ≤ x) (hhi : x < cGet cutoff (nClusters cutoff)) :
    ∃! i, i < nClusters cutoff ∧ clusterMask cutoff i x = true := by
  rcases cluster_exists hv hlo hhi with ⟨i, hi, hm⟩
  exact ⟨i, ⟨hi, hm⟩, fun j hj => cluster_unique hv hj.1 hi hj.2 hm⟩

/-- Witness for C7 at cutoffs `[4, 7, 10]` and id `8`. -/
theorem C7_cluster_partition_witness :
    ∃! i, i < nClusters [4, 7, 10] ∧ clusterMask [4, 7, 10] i 8 = true :=
  C7_cluster_partition (by decide) (by decide) (by decide)

/-- C6, counterexample: with cutoffs `[4, 7, 10]` and targets `[0, 5, 8, 2]`
the remapped head targets are not the claimed `[0, 4, 4, 2]` (target 8 lies in
the second cluster `[7, 10)`, so it is remapped to head id `4 + 1 = 5`). -/
theorem C6_remap_counterexample :
    remapHead [4, 7, 10] [0, 5, 8, 2] ≠ [0, 4, 4, 2] := by decide

/-- C6, amended: with cutoffs `[4, 7, 10]` there are two tail clusters;
positions 1 and 2 (targets 5 and 8) route to clusters 0 and 1 with local ids
1 and 1, positions 0 and 3 stay in the head band, and the remapped head
targets are `[0, 4, 5, 2]`. -/
theorem C6_routing :
    selIdx [4, 7, 10] [0, 5, 8, 2] 0 = [1] ∧
    selIdx [4, 7, 10] [0, 5, 8, 2] 1 = [2] ∧
    remapLocals [4, 7, 10] [0, 5, 8, 2] = [some [1], some [1]] ∧
    remapHead [4, 7, 10] [0, 5, 8, 2] = [0, 4, 5, 2] := by decide

/-- C8, counterexample: the non-strictly-increasing (hence invalid) cutoff
configuration `[5, 5, 10]` constructs without any error: `__init__` performs
no validation and every layer dimension it requests is non-negative. -/
theorem C8_init_counterexample :
    ¬ ValidCutoffs [5, 5, 10] ∧ initOK [5, 5, 10] = true := by decide

/-- C8, amended: construction fails iff some consecutive cutoff pair strictly
decreases (making a tail layer size negative); merely non-strictly-increasing
or vocabulary-exceeding configurations whose appended list never strictly
decreases construct without error, since `__init__` validates nothing. -/
theorem C8_init_no_validation (cutoff : List ℕ) :
    initOK cutoff = false ↔
      ∃ i, i < cutoff.length - 1 ∧ cGet cutoff (i + 1) < cGet cutoff i := by
  unfold initOK
  simp [Nat.not_le]

/-- A `getD` read below the length commutes with `map`. -/
theorem getD_map_lt {α β : Type} (f : α → β) (l : List α) (p : ℕ)
    (hp : p < l.length) (d : β) (d' : α) :
    (l.map f).getD p d = f (l.getD p d') := by
  have hp' : p < (l.map f).length := by simpa using hp
  rw [List.getD_eq_getElem _ _ hp', List.getD_eq_getElem _ _ hp, List.getElem_map]

/-- Cluster writes whose column range misses `j` leave entry `j` unchanged. -/
theorem foldl_clusterWrite_untouched (m : AdaptiveSoftmax) (h : Vec) (j : ℕ) :
    ∀ (l : List ℕ) (p : Vec), (∀ i ∈ l, ¬ inWriteRange m.cutoff i j) →
      (l.foldl (clusterWrite m h) p) j = p j := by
  intro l
  induction l with
  | nil => intro p _; rfl
  | cons a l ih =>
      intro p hl
      have ha : ¬ inWriteRange m.cutoff a j := hl a (List.mem_cons_self a l)
      rw [List.foldl_cons,
        ih (clusterWrite m h p a) (fun i hi => hl i (List.mem_cons_of_mem a hi))]
      unfold clusterWrite
      simp [ha]

/-- Under valid cutoffs, the `narrow` range of cluster `i` is exactly
`[cutoff[i], cutoff[i+1])`. -/
theorem inWriteRange_iff {cutoff : List ℕ} (hv : ValidCutoffs cutoff) {i : ℕ}
    (hi : i < nClusters cutoff) (j : ℕ) :
    inWriteRange cutoff i j ↔ cGet cutoff i ≤ j ∧ j < cGet cutoff (i + 1) := by
  have hle : cGet cutoff i ≤ cGet cutoff (i + 1) := le_of_lt (cGet_lt_succ hv hi)
  unfold inWriteRange
  omega

/-- Head-band columns of `log_prob` are untouched by every cluster write and
hold the head log-softmax. -/
theorem logProbRow_eq_head {m : AdaptiveSoftmax} (hv : ValidCutoffs m.cutoff)
    (h : Vec) {j : ℕ} (hj : j < cGet m.cutoff 0) :
    logProbRow m h j = headLsm m h j := by
  unfold logProbRow
  rw [foldl_clusterWrite_untouched]
  · unfold probInit
    have : j < outputSize m.cutoff := by
      unfold outputSize; omega
    simp [this]
  · intro i hi hw
    have hi' : i < nClusters m.cutoff := List.mem_range.mp hi
    have h0 : cGet m.cutoff 0 ≤ cGet m.cutoff i := cGet_le hv (Nat.zero_le i) (le_of_lt hi')
    have := ((inWriteRange_iff hv hi' j).mp hw).1
    omega

/-- A column in cluster `i`'s range receives the cluster-`i` write and no
later write: head log-probability of the routing token plus the tail
log-softmax at the local offset. -/
theorem logProbRow_eq_cluster {m : AdaptiveSoftmax} (hv : ValidCutoffs m.cutoff)
    (h : Vec) {i j : ℕ} (hi : i < nClusters m.cutoff)
    (hlo : cGet m.cutoff i ≤ j) (hhi : j < cGet m.cutoff (i + 1)) :
    logProbRow m h j =
      headLsm m h (cGet m.cutoff 0 + i) + tailLsm m i h (j - cGet m.cutoff i) := by
  unfold logProbRow
  have hsplit : (i + 1) + (nClusters m.cutoff - (i + 1)) = nClusters m.cutoff := by omega
  have hrange := List.range_add (i + 1) (nClusters m.cutoff - (i + 1))
  rw [hsplit] at hrange
  rw [hrange, List.foldl_append]
  rw [foldl_clusterWrite_untouched]
  · rw [show List.range (i + 1) = List.range i ++ [i] from List.range_succ i,
      List.foldl_append, List.foldl_cons, List.foldl_nil]
    have hw : inWriteRange m.cutoff i j := (inWriteRange_iff hv hi j).mpr ⟨hlo, hhi⟩
    unfold clusterWrite
    simp [hw]
  · intro a ha hw
    rcases List.mem_map.mp ha with ⟨u, hu, rfl⟩
    have hu' : u < nClusters m.cutoff - (i + 1) := List.mem_range.mp hu
    have haK : (i + 1) + u < nClusters m.cutoff := by omega
    have h1 : cGet m.cutoff (i + 1) ≤ cGet m.cutoff ((i + 1) + u) :=
      cGet_le hv (Nat.le_add_right _ _) (le_of_lt haK)
    have := ((inWriteRange_iff hv haK j).mp hw).1
    omega

/-- C1: every row of the matrix returned by `AdaptiveSoftmax.log_prob` holds
the head log-softmax on the head band `[0, c0)` and, on each cluster range
`[c_i, c_{i+1})`, the head log-softmax of the routing token `c0 + i` plus the
cluster's tail log-softmax at `j - c_i`. -/
theorem C1_log_prob_rows (m : AdaptiveSoftmax) (hs : List Vec)
    (hv : ValidCutoffs m.cutoff) (p : ℕ) (hp : p < hs.length) :
    (∀ j < cGet m.cutoff 0,
        (logProbMat m hs).getD p zeroVec j = headLsm m (hs.getD p zeroVec) j) ∧
    (∀ i < nClusters m.cutoff, ∀ j, cGet m.cutoff i ≤ j → j < cGet m.cutoff (i + 1) →
        (logProbMat m hs).getD p zeroVec j =
          headLsm m (hs.getD p zeroVec) (cGet m.cutoff 0 + i) +
            tailLsm m i (hs.getD p zeroVec) (j - cGet m.cutoff i)) := by
  unfold logProbMat
  rw [getD_map_lt (logProbRow m) hs p hp zeroVec zeroVec]
  exact ⟨fun j hj => logProbRow_eq_head hv _ hj,
    fun i hi j hlo hhi => logProbRow_eq_cluster hv _ hi hlo hhi⟩

/-- Witness for C1: a one-row batch through a concrete two-token model. -/
theorem C1_log_prob_rows_witness :
    let m0 : AdaptiveSoftmax :=
      ⟨1, [1, 2], fun _ => zeroVec, zeroVec, fun _ _ => zeroVec, fun _ _ => zeroVec⟩
    (∀ j < cGet m0.cutoff 0,
        (logProbMat m0 [zeroVec]).getD 0 zeroVec j = headLsm m0 ([zeroVec].getD 0 zeroVec) j) ∧
    (∀ i < nClusters m0.cutoff, ∀ j, cGet m0.cutoff i ≤ j → j < cGet m0.cutoff (i + 1) →
        (logProbMat m0 [zeroVec]).getD 0 zeroVec j =
          headLsm m0 ([zeroVec].getD 0 zeroVec) (cGet m0.cutoff 0 + i) +
            tailLsm m0 i ([zeroVec].getD 0 zeroVec) (j - cGet m0.cutoff i)) :=
  C1_log_prob_rows _ [zeroVec] (by decide) 0 (by simp)

/-- The exponentials of a log-softmax over `n ≥ 1` entries sum to 1. -/
theorem sum_exp_logSoftmax {n : ℕ} (hn : 0 < n) (x : Vec) :
    ∑ j in Finset.range n, Real.exp (logSoftmax n x j) = 1 := by
  have hS : 0 < ∑ k in Finset.range n, Real.exp (x k) :=
    Finset.sum_pos (fun i _ => Real.exp_pos _) ⟨0, Finset.mem_range.mpr hn⟩
  unfold logSoftmax
  have hpt : ∀ j ∈ Finset.range n,
      Real.exp (x j - Real.log (∑ k in Finset.range n, Real.exp (x k))) =
        Real.exp (x j) / (∑ k in Finset.range n, Real.exp (x k)) := by
    intro j _
    rw [Real.exp_sub, Real.exp_log hS]
  rw [Finset.sum_congr rfl hpt, ← Finset.sum_div, div_self (ne_of_gt hS)]

/-- The band `[c0, c_n)` splits as the disjoint union of the cluster ranges. -/
theorem sum_Ico_clusters {cutoff : List ℕ} (hv : ValidCutoffs cutoff) (f : ℕ → ℝ) :
    ∀ n, n ≤ nClusters cutoff →
      ∑ j in Finset.Ico (cGet cutoff 0) (cGet cutoff n), f j =
        ∑ i in Finset.range n,
          ∑ j in Finset.Ico (cGet cutoff i) (cGet cutoff (i + 1)), f j := by
  intro n
  induction n with
  | zero => intro _; simp
  | succ n ih =>
      intro hn
      have hn' : n ≤ nClusters cutoff := le_trans (Nat.le_succ n) hn
      have h1 : cGet cutoff 0 ≤ cGet cutoff n := cGet_le hv (Nat.zero_le n) hn'
      have h2 : cGet cutoff n ≤ cGet cutoff (n + 1) :=
        le_of_lt (cGet_lt_succ hv (Nat.lt_of_succ_le hn))
      rw [Finset.sum_range_succ, ← ih hn', Finset.sum_Ico_consecutive f h1 h2]

/-- C2: every row of the `log_prob` output is an exact log-probability
distribution over the whole vocabulary: the exponentials of its first
`V = cutoff[-1]` entries sum to 1. -/
theorem C2_log_prob_distribution (m : AdaptiveSoftmax) (hs : List Vec)
    (hv : ValidCutoffs m.cutoff) (p : ℕ) (hp : p < hs.length) :
    ∑ j in Finset.range (cGet m.cutoff (nClusters m.cutoff)),
      Real.exp ((logProbMat m hs).getD p zeroVec j) = 1 := by
  unfold logProbMat
  rw [getD_map_lt (logProbRow m) hs p hp zeroVec zeroVec]
  have hc0 : 0 < cGet m.cutoff 0 := hv.2.1
  have hK : 1 ≤ nClusters m.cutoff := by
    have := hv.1; unfold nClusters; omega
  have hVK : cGet m.cutoff 0 ≤ cGet m.cutoff (nClusters m.cutoff) :=
    cGet_le hv (Nat.zero_le _) le_rfl
  rw [Finset.range_eq_Ico,
    ← Finset.sum_Ico_consecutive _ (Nat.zero_le (cGet m.cutoff 0)) hVK]
  have hhead : ∑ j in Finset.Ico 0 (cGet m.cutoff 0),
      Real.exp (logProbRow m (hs.getD p zeroVec) j) =
      ∑ j in Finset.range (cGet m.cutoff 0),
        Real.exp (headLsm m (hs.getD p zeroVec) j) := by
    rw [Finset.range_eq_Ico]
    exact Finset.sum_congr rfl (fun j hj => by
      rw [logProbRow_eq_head hv _ (Finset.mem_Ico.mp hj).2])
  have hclus : ∀ i ∈ Finset.range (nClusters m.cutoff),
      ∑ j in Finset.Ico (cGet m.cutoff i) (cGet m.cutoff (i + 1)),
        Real.exp (logProbRow m (hs.getD p zeroVec) j) =
      Real.exp (headLsm m (hs.getD p zeroVec) (cGet m.cutoff 0 + i)) := by
    intro i hi
    have hi' : i < nClusters m.cutoff := Finset.mem_range.mp hi
    have hsz : 0 < cGet m.cutoff (i + 1) - cGet m.cutoff i := by
      have := cGet_lt_succ hv hi'; omega
    have step1 : ∑ j in Finset.Ico (cGet m.cutoff i) (cGet m.cutoff (i + 1)),
        Real.exp (logProbRow m (hs.getD p zeroVec) j) =
        ∑ j in Finset.Ico (cGet m.cutoff i) (cGet m.cutoff (i + 1)),
          Real.exp (headLsm m (hs.getD p zeroVec) (cGet m.cutoff 0 + i)) *
            Real.exp (tailLsm m i (hs.getD p zeroVec) (j - cGet m.cutoff i)) :=
      Finset.sum_congr rfl (fun j hj => by
        rcases Finset.mem_Ico.mp hj with ⟨h1, h2⟩
        rw [logProbRow_eq_cluster hv _ hi' h1 h2, Real.exp_add])
    rw [step1, ← Finset.mul_sum, Finset.sum_Ico_eq_sum_range]
    have step2 : ∀ g ∈ Finset.range (cGet m.cutoff (i + 1) - cGet m.cutoff i),
        Real.exp (tailLsm m i (hs.getD p zeroVec) ((cGet m.cutoff i + g) - cGet m.cutoff i)) =
        Real.exp (tailLsm m i (hs.getD p zeroVec) g) := by
      intro g _
      rw [Nat.add_sub_cancel_left]
    rw [Finset.sum_congr rfl step2]
    have hone : ∑ g in Finset.range (cGet m.cutoff (i + 1) - cGet m.cutoff i),
        Real.exp (tailLsm m i (hs.getD p zeroVec) g) = 1 := by
      unfold tailLsm
      exact sum_exp_logSoftmax hsz _
    rw [hone, mul_one]
  rw [hhead, sum_Ico_clusters hv _ (nClusters m.cutoff) le_rfl,
    Finset.sum_congr rfl hclus]
  have hre : ∑ i in Finset.range (nClusters m.cutoff),
      Real.exp (headLsm m (hs.getD p zeroVec) (cGet m.cutoff 0 + i)) =
      ∑ j in Finset.Ico (cGet m.cutoff 0) (cGet m.cutoff 0 + nClusters m.cutoff),
        Real.exp (headLsm m (hs.getD p zeroVec) j) := by
    rw [Finset.sum_Ico_eq_sum_range]
    simp
  rw [hre, Finset.range_eq_Ico, Finset.sum_Ico_consecutive _ (Nat.zero_le _)
    (Nat.le_add_right (cGet m.cutoff 0) (nClusters m.cutoff)), ← Finset.range_eq_Ico]
  have : cGet m.cutoff 0 + nClusters m.cutoff = outputSize m.cutoff := rfl
  rw [this]
  unfold headLsm
  exact sum_exp_logSoftmax (by unfold outputSize; omega) _

/-- Witness for C2: a one-row batch through a concrete two-token model. -/
theorem C2_log_prob_distribution_witness :
    let m0 : AdaptiveSoftmax :=
      ⟨1, [1, 2], fun _ => zeroVec, zeroVec, fun _ _ => zeroVec, fun _ _ => zeroVec⟩
    ∑ j in Finset.range (cGet m0.cutoff (nClusters m0.cutoff)),
      Real.exp ((logProbMat m0 [zeroVec]).getD 0 zeroVec j) = 1 :=
  C2_log_prob_distribution _ [zeroVec] (by decide) 0 (by simp)

/-- `getD` through `zipWith` at an in-range position. -/
theorem getD_zipWith {α β γ : Type} (f : α → β → γ) :
    ∀ (l₁ : List α) (l₂ : List β) (p : ℕ) (d₁ : α) (d₂ : β) (d₃ : γ),
      p < l₁.length → p < l₂.length →
      (List.zipWith f l₁ l₂).getD p d₃ = f (l₁.getD p d₁) (l₂.getD p d₂) := by
  intro l₁
  induction l₁ with
  | nil => intro l₂ p _ _ _ h₁ _; simp at h₁
  | cons a l₁ ih =>
      intro l₂ p d₁ d₂ d₃ h₁ h₂
      cases l₂ with
      | nil => simp at h₂
      | cons b l₂ =>
          cases p with
          | zero => rfl
          | succ p =>
              simp only [List.zipWith_cons_cons, List.getD_cons_succ]
              exact ih l₂ p d₁ d₂ d₃ (by simpa using h₁) (by simpa using h₂)

/-- A bounded list has a bounded running maximum (the `.max()` of the
assert). -/
theorem foldr_max_le {n : ℕ} : ∀ l : List ℕ, (∀ x ∈ l, x ≤ n) → l.foldr max 0 ≤ n := by
  intro l
  induction l with
  | nil => intro _; exact Nat.zero_le n
  | cons a l ih =>
      intro h
      simp only [List.foldr_cons]
      exact max_le (h a (List.mem_cons_self a l))
        (ih (fun x hx => h x (List.mem_cons_of_mem a hx)))

/-- Zipping two maps over the same index list pairs them pointwise. -/
theorem zip_map_map {α β γ : Type} {δ : Type} (f : α → β) (g : α → γ) (F : β × γ → δ) :
    ∀ l : List α, ((l.map f).zip (l.map g)).map F = l.map (fun x => F (f x, g x)) := by
  intro l
  induction l with
  | nil => rfl
  | cons a l ih =>
      simp only [List.map_cons, List.zip_cons_cons]
      rw [ih]

/-- A zip of equal-length lists, read positionally. -/
theorem zip_eq_range_map {α β : Type} (dA : α) (dB : β) :
    ∀ (A : List α) (B : List β), A.length = B.length →
      A.zip B = (List.range A.length).map (fun p => (A.getD p dA, B.getD p dB)) := by
  intro A
  induction A with
  | nil => intro B _; simp
  | cons a A ih =>
      intro B h
      cases B with
      | nil => simp at h
      | cons b B =>
          have h' : A.length = B.length := by simpa using h
          simp only [List.zip_cons_cons, List.length_cons, List.range_succ_eq_map,
            List.map_cons, List.map_map, List.getD_cons_zero]
          congr 1
          rw [ih B h']
          exact List.map_congr_left (fun p _ => by
            simp [Function.comp, List.getD_cons_succ])

/-- List sums over `range` agree with `Finset` sums. -/
theorem range_map_sum (f : ℕ → ℝ) : ∀ n : ℕ,
    ((List.range n).map f).sum = ∑ i in Finset.range n, f i := by
  intro n
  induction n with
  | zero => simp
  | succ n ih =>
      rw [List.range_succ, List.map_append, List.sum_append, Finset.sum_range_succ, ih]
      simp

/-- A filtered positional sum over `range n` as an indicator sum. -/
theorem filter_range_map_sum (q : ℕ → Bool) (f : ℕ → ℝ) : ∀ n : ℕ,
    (((List.range n).filter q).map f).sum = ∑ p in Finset.range n, if q p then f p else 0 := by
  intro n
  induction n with
  | zero => simp
  | succ n ih =>
      rw [List.range_succ, List.filter_append, List.map_append, List.sum_append,
        Finset.sum_range_succ, ih]
      cases hq : q n <;> simp [hq]

/-- Filtering values equals selecting the masked positions and reading them
back: the bridge between `target[mask]` and the index sets of `set_target`. -/
theorem filter_eq_range_filter {α : Type} (d : α) (q : α → Bool) :
    ∀ t : List α,
      t.filter q =
        ((List.range t.length).filter (fun p => q (t.getD p d))).map (fun p => t.getD p d) := by
  intro t
  induction t with
  | nil => rfl
  | cons a t ih =>
      simp only [List.length_cons, List.range_succ_eq_map, List.filter_cons,
        List.getD_cons_zero, List.filter_map, List.map_map]
      cases hq : q a
      · rw [if_neg (by simp [hq]), ih]
        rw [if_neg (by simp [hq])]
        simp [List.map_map, Function.comp_def, List.getD_cons_succ]
      · rw [if_pos (by simp [hq]), ih]
        rw [if_pos (by simp [hq])]
        simp [List.map_map, Function.comp_def, List.getD_cons_succ]

/-- One remap pass keeps the (zip-truncated) length. -/
theorem remapStep_length (cutoff : List ℕ) (t acc : List ℕ) (i : ℕ) :
    (remapStep cutoff t acc i).length = min t.length acc.length := by
  unfold remapStep
  exact List.length_zipWith _ _ _

/-- The remap passes keep the target vector's length. -/
theorem foldl_remapStep_length (cutoff : List ℕ) (t : List ℕ) :
    ∀ (l : List ℕ) (acc : List ℕ), acc.length = t.length →
      (l.foldl (remapStep cutoff t) acc).length = t.length := by
  intro l
  induction l with
  | nil => intro acc h; exact h
  | cons a l ih =>
      intro acc h
      rw [List.foldl_cons]
      exact ih _ (by rw [remapStep_length, h, Nat.min_self])

/-- `new_target[0]` has the batch length. -/
theorem remapHead_length (cutoff : List ℕ) (t : List ℕ) :
    (remapHead cutoff t).length = t.length :=
  foldl_remapStep_length cutoff t _ t rfl

/-- Remap passes whose mask misses position `p` leave it unchanged. -/
theorem foldl_remapStep_untouched (cutoff : List ℕ) (t : List ℕ) (p : ℕ)
    (hp : p < t.length) :
    ∀ (l : List ℕ) (acc : List ℕ), acc.length = t.length →
      (∀ i ∈ l, clusterMask cutoff i (t.getD p 0) = false) →
      (l.foldl (remapStep cutoff t) acc).getD p 0 = acc.getD p 0 := by
  intro l
  induction l with
  | nil => intro acc _ _; rfl
  | cons a l ih =>
      intro acc hlen hmask
      rw [List.foldl_cons,
        ih _ (by rw [remapStep_length, hlen, Nat.min_self])
          (fun i hi => hmask i (List.mem_cons_of_mem a hi))]
      unfold remapStep
      rw [getD_zipWith _ t acc p 0 0 0 hp (hlen ▸ hp)]
      exact if_neg (by simpa using hmask a (List.mem_cons_self a l))

/-- A remap pass whose mask hits position `p`, followed only by misses,
pins the position to the head id `cutoff[0] + i`. -/
theorem foldl_remapStep_hit (cutoff : List ℕ) (t : List ℕ) (p : ℕ)
    (hp : p < t.length) (i : ℕ) (l₁ l₂ : List ℕ) (acc : List ℕ)
    (hlen : acc.length = t.length)
    (hm : clusterMask cutoff i (t.getD p 0) = true)
    (hl₂ : ∀ j ∈ l₂, clusterMask cutoff j (t.getD p 0) = false) :
    ((l₁ ++ i :: l₂).foldl (remapStep cutoff t) acc).getD p 0 = cGet cutoff 0 + i := by
  rw [List.foldl_append, List.foldl_cons]
  have hlen1 : (l₁.foldl (remapStep cutoff t) acc).length = t.length :=
    foldl_remapStep_length _ _ _ _ hlen
  rw [foldl_remapStep_untouched cutoff t p hp l₂ _
    (by rw [remapStep_length, hlen1, Nat.min_self]) hl₂]
  unfold remapStep
  rw [getD_zipWith _ t _ p 0 0 0 hp (hlen1 ▸ hp)]
  exact if_pos hm

/-- Position `p` of `new_target[0]` when cluster `i` routes it and no later
cluster does. -/
theorem remapHead_getD_hit (cutoff : List ℕ) (t : List ℕ) (p i : ℕ)
    (hp : p < t.length) (hi : i < nClusters cutoff)
    (hm : clusterMask cutoff i (t.getD p 0) = true)
    (hafter : ∀ j, i < j → j < nClusters cutoff → clusterMask cutoff j (t.getD p 0) = false) :
    (remapHead cutoff t).getD p 0 = cGet cutoff 0 + i := by
  unfold remapHead
  have hsplit : (i + 1) + (nClusters cutoff - (i + 1)) = nClusters cutoff := by omega
  have hrange := List.range_add (i + 1) (nClusters cutoff - (i + 1))
  rw [hsplit] at hrange
  rw [hrange, show List.range (i + 1) = List.range i ++ [i] from List.range_succ i,
    List.append_assoc, List.singleton_append]
  refine foldl_remapStep_hit cutoff t p hp i _ _ t rfl hm ?_
  intro j hj
  rcases List.mem_map.mp hj with ⟨u, hu, rfl⟩
  have := List.mem_range.mp hu
  exact hafter _ (by omega) (by omega)

/-- Position `p` of `new_target[0]` when no cluster routes it. -/
theorem remapHead_getD_none (cutoff : List ℕ) (t : List ℕ) (p : ℕ)
    (hp : p < t.length)
    (hnone : ∀ i < nClusters cutoff, clusterMask cutoff i (t.getD p 0) = false) :
    (remapHead cutoff t).getD p 0 = t.getD p 0 := by
  unfold remapHead
  exact foldl_remapStep_untouched cutoff t p hp _ t rfl
    (fun i hi => hnone i (List.mem_range.mp hi))

/-- Reading a cutoff entry of the common prefix. -/
theorem cGet_append_lt (cli l₂ : List ℕ) (i : ℕ) (hi : i < cli.length) :
    cGet (cli ++ l₂) i = cGet cli i :=
  List.getD_append cli l₂ 0 i hi

/-- Reading the appended final cutoff entry. -/
theorem cGet_append_last (cli : List ℕ) (w : ℕ) :
    cGet (cli ++ [w]) cli.length = w := by
  unfold cGet
  rw [List.getD_append_right cli [w] 0 cli.length (le_refl cli.length)]
  simp

/-- Appending one entry gives one cluster per prefix entry. -/
theorem nClusters_append (cli : List ℕ) (w : ℕ) :
    nClusters (cli ++ [w]) = cli.length := by
  unfold nClusters
  simp

/-- Raising the final cutoff preserves validity. -/
theorem valid_bump {cli : List ℕ} {V W : ℕ} (hv : ValidCutoffs (cli ++ [V]))
    (hVW : V ≤ W) : ValidCutoffs (cli ++ [W]) := by
  obtain ⟨h1, h2, h3⟩ := hv
  refine ⟨by simpa using h1, ?_, ?_⟩
  · cases cli with
    | nil => simpa using lt_of_lt_of_le (by simpa [cGet] using h2) hVW
    | cons a cli => simpa [cGet] using h2
  · intro i hi
    have hi' : i < cli.length := by
      have := (List.length_append cli [W]) ▸ hi
      simpa using hi
    have h3i := h3 i (by simpa using hi')
    rcases Nat.lt_or_ge (i + 1) cli.length with h | h
    · rw [cGet_append_lt cli [W] i hi', cGet_append_lt cli [W] (i + 1) h]
      rw [cGet_append_lt cli [V] i hi', cGet_append_lt cli [V] (i + 1) h] at h3i
      exact h3i
    · have he : i + 1 = cli.length := by omega
      rw [cGet_append_lt cli [W] i hi', he, cGet_append_last]
      rw [cGet_append_lt cli [V] i hi', he, cGet_append_last] at h3i
      exact lt_of_lt_of_le h3i hVW

/-- For ids below `V`, cluster membership does not depend on whether the
final cutoff entry is `V` or any `W ≥ V`: the `[..., ntokens]` cutoffs of the
softmax and the `[..., ntokens + 1]` cutoffs of the loss route identically. -/
theorem clusterMask_bump_agree {cli : List ℕ} {V W x : ℕ} (hx : x < V)
    (hVW : V ≤ W) {i : ℕ} (hi : i < cli.length) :
    clusterMask (cli ++ [W]) i x = clusterMask (cli ++ [V]) i x := by
  unfold clusterMask
  rw [cGet_append_lt cli [W] i hi, cGet_append_lt cli [V] i hi]
  rcases Nat.lt_or_ge (i + 1) cli.length with h | h
  · rw [cGet_append_lt cli [W] (i + 1) h, cGet_append_lt cli [V] (i + 1) h]
  · have he : i + 1 = cli.length := by omega
    rw [he, cGet_append_last, cGet_append_last]
    have hxW : x < W := lt_of_lt_of_le hx hVW
    simp [hx, hxW]

/-- Shifting the start index against a longer target list: the loop reading
`target[n+1], target[n+2], ...` from `x :: tgts` reads `tgts` from `n`. -/
theorem slotSum_shift (x : Option (List ℕ)) (tgts : List (Option (List ℕ))) :
    ∀ (inp : List (Option Mat)) (n : ℕ),
      slotSum (x :: tgts) inp (n + 1) = slotSum tgts inp n := by
  intro inp
  induction inp with
  | nil => intro n; rfl
  | cons a inp ih =>
      intro n
      simp only [slotSum]
      rw [List.getD_cons_succ, ih (n + 1)]

/-- The accumulation loop evaluates to the sum of its per-slot values when
every slot succeeds. -/
theorem slotSum_ok :
    ∀ (A : List (Option Mat)) (w : ℕ → ℝ) (B : List (Option (List ℕ))),
      A.length = B.length →
      (∀ j, j < A.length → evalSlot (A.getD j none) (B.getD j none) = Except.ok (w j)) →
      slotSum B A 0 = Except.ok (∑ j in Finset.range A.length, w j) := by
  intro A
  induction A with
  | nil =>
      intro w B _ _
      simp [slotSum]
  | cons a A ih =>
      intro w B h hok
      cases B with
      | nil => simp at h
      | cons b B =>
          have h' : A.length = B.length := by simpa using h
          simp only [slotSum, List.getD_cons_zero]
          rw [slotSum_shift]
          have h0 := hok 0 (by simp)
          simp only [List.getD_cons_zero] at h0
          rw [h0]
          have hok' : ∀ j, j < A.length →
              evalSlot (A.getD j none) (B.getD j none) = Except.ok (w (j + 1)) := by
            intro j hj
            have := hok (j + 1) (by simpa using hj)
            simpa [List.getD_cons_succ] using this
          rw [ih (fun j => w (j + 1)) B h' hok']
          simp only [List.length_cons, Finset.sum_range_succ']
          show Except.ok (w 0 + ∑ j in Finset.range A.length, w (j + 1)) = _
          rw [add_comm]

/-- Dropping a skipped (`None`) slot together with its aligned target slot
leaves the accumulated criterion sum unchanged: the empty cluster
contributes nothing. -/
theorem slotSum_erase :
    ∀ (k : ℕ) (A : List (Option Mat)) (B : List (Option (List ℕ))),
      B.length = A.length → A.get? k = some none →
      slotSum B A 0 = slotSum (B.eraseIdx k) (A.eraseIdx k) 0 := by
  intro k
  induction k with
  | zero =>
      intro A B hlen hk
      cases A with
      | nil => simp at hk
      | cons a A =>
          have ha : a = none := by simpa using hk
          subst ha
          cases B with
          | nil => simp at hlen
          | cons b B =>
              simp only [List.eraseIdx_cons_zero]
              simp only [slotSum, List.getD_cons_zero]
              rw [slotSum_shift]
              show (do
                let v ← Except.ok (0 : ℝ)
                let w ← slotSum B A 0
                pure (v + w)) = slotSum B A 0
              cases hS : slotSum B A 0 with
              | error e => rfl
              | ok v =>
                  show Except.ok ((0 : ℝ) + v) = Except.ok v
                  rw [zero_add]
  | succ k ih =>
      intro A B hlen hk
      cases A with
      | nil => simp at hk
      | cons a A =>
          cases B with
          | nil => simp at hlen
          | cons b B =>
              have hlen' : B.length = A.length := by simpa using hlen
              have hk' : A.get? k = some none := by simpa using hk
              simp only [List.eraseIdx_cons_succ]
              simp only [slotSum, List.getD_cons_zero]
              rw [slotSum_shift, slotSum_shift, ih A B hlen' hk']

/-- Reading the per-cluster local-id slot of `remap_target`. -/
theorem remapLocals_getD (cutoff : List ℕ) (t : List ℕ) (i : ℕ)
    (hi : i < nClusters cutoff) :
    (remapLocals cutoff t).getD i none =
      (if (t.filter (fun x => clusterMask cutoff i x)).isEmpty then none
       else some ((t.filter (fun x => clusterMask cutoff i x)).map
         (fun x => x - cGet cutoff i))) := by
  unfold remapLocals
  rw [getD_map_lt _ (List.range (nClusters cutoff)) i (by simpa using hi) none 0]
  have hr : (List.range (nClusters cutoff)).getD i 0 = i := by
    rw [List.getD_eq_getElem _ _ (by simpa using hi)]
    simp
  rw [hr]

/-- Reading a tail slot of the `forward` output. -/
theorem asForward_getD_tail (m : AdaptiveSoftmax) (hs : List Vec) (t : List ℕ)
    (i : ℕ) (hi : i < nClusters m.cutoff) :
    (asForward m hs t).getD (i + 1) none =
      (if (selIdx m.cutoff t i).isEmpty then none
       else some ⟨cGet m.cutoff (i + 1) - cGet m.cutoff i,
         (selIdx m.cutoff t i).map (fun p => tailOut m i (hs.getD p zeroVec))⟩) := by
  unfold asForward
  rw [List.getD_cons_succ]
  rw [getD_map_lt _ (List.range (nClusters m.cutoff)) i (by simpa using hi) none 0]
  have hr : (List.range (nClusters m.cutoff)).getD i 0 = i := by
    rw [List.getD_eq_getElem _ _ (by simpa using hi)]
    simp
  rw [hr]

/-- A successful criterion slot: matching row/target counts, a nonempty
target tensor, and all class ids strictly below the class count. -/
theorem evalSlot_ok (n : ℕ) (rows : List Vec) (ts : List ℕ)
    (hlen : rows.length = ts.length) (hne : ts ≠ [])
    (hlt : ∀ x ∈ ts, x < n) :
    evalSlot (some ⟨n, rows⟩) (some ts) =
      Except.ok (((rows.zip ts).map (fun rt => -(logSoftmax n rt.1 rt.2))).sum) := by
  simp only [evalSlot]
  rw [if_neg (by simpa using hne)]
  rw [if_pos (foldr_max_le ts (fun x hx => le_of_lt (hlt x hx)))]
  unfold criterionSum
  rw [if_pos ⟨hlen, hlt⟩]

/-- `set_target`'s index sets are identical under the softmax cutoffs
`[..., V]` and the loss cutoffs `[..., V+1]` when all targets are `< V`. -/
theorem selIdx_bump_agree (cli : List ℕ) (V : ℕ) (t : List ℕ)
    (ht : ∀ x ∈ t, x < V) (i : ℕ) (hi : i < cli.length) :
    selIdx (cli ++ [V]) t i = selIdx (cli ++ [V + 1]) t i := by
  unfold selIdx
  apply List.filter_congr
  intro p hp
  have hpl : p < t.length := List.mem_range.mp hp
  have hmem : t.getD p 0 ∈ t := by
    rw [List.getD_eq_getElem _ _ hpl]
    exact List.getElem_mem _
  exact (clusterMask_bump_agree (ht _ hmem) (Nat.le_succ V) hi).symm

/-- The values filtered by the loss's mask are the values at the positions
selected by `set_target`, in the same order. -/
theorem loss_filter_eq (cli : List ℕ) (V : ℕ) (t : List ℕ)
    (ht : ∀ x ∈ t, x < V) (i : ℕ) (hi : i < cli.length) :
    t.filter (fun x => clusterMask (cli ++ [V + 1]) i x) =
      (selIdx (cli ++ [V]) t i).map (fun p => t.getD p 0) := by
  have hagree : ∀ x ∈ t,
      clusterMask (cli ++ [V + 1]) i x = clusterMask (cli ++ [V]) i x :=
    fun x hx => clusterMask_bump_agree (ht x hx) (Nat.le_succ V) hi
  rw [List.filter_congr hagree]
  unfold selIdx
  exact filter_eq_range_filter 0 _ t

/-- Case analysis of the routing of one batch position: either the target is
in the head band (no mask hits, the remapped id is the raw target), or
exactly one cluster routes it (the remapped id is `c0 + i`); the masks are
the softmax-side ones and the remapping is the loss-side one, as paired by
`main.py`. -/
theorem remap_cases (cli : List ℕ) (V : ℕ) (t : List ℕ)
    (hv : ValidCutoffs (cli ++ [V])) (ht : ∀ x ∈ t, x < V) (p : ℕ)
    (hp : p < t.length) :
    (t.getD p 0 < cGet (cli ++ [V]) 0 ∧
      (remapHead (cli ++ [V + 1]) t).getD p 0 = t.getD p 0 ∧
      ∀ i < cli.length, clusterMask (cli ++ [V]) i (t.getD p 0) = false) ∨
    (∃ i, i < cli.length ∧ clusterMask (cli ++ [V]) i (t.getD p 0) = true ∧
      (∀ j < cli.length, j ≠ i → clusterMask (cli ++ [V]) j (t.getD p 0) = false) ∧
      (remapHead (cli ++ [V + 1]) t).getD p 0 = cGet (cli ++ [V]) 0 + i) := by
  have hcli : 1 ≤ cli.length := by
    have h1 := hv.1
    rw [List.length_append] at h1
    simpa using h1
  have hvL : ValidCutoffs (cli ++ [V + 1]) := valid_bump hv (Nat.le_succ V)
  have hc0 : cGet (cli ++ [V + 1]) 0 = cGet (cli ++ [V]) 0 := by
    rw [cGet_append_lt _ _ 0 hcli, cGet_append_lt _ _ 0 hcli]
  have hmem : t.getD p 0 ∈ t := by
    rw [List.getD_eq_getElem _ _ hp]
    exact List.getElem_mem _
  have hxV : t.getD p 0 < V := ht _ hmem
  rcases Nat.lt_or_ge (t.getD p 0) (cGet (cli ++ [V]) 0) with hx | hx
  · left
    refine ⟨hx, ?_, ?_⟩
    · refine remapHead_getD_none (cli ++ [V + 1]) t p hp ?_
      intro i hi
      exact clusterMask_head hvL hi (by rwa [hc0])
    · intro i hi
      exact clusterMask_head hv (by rwa [nClusters_append]) hx
  · right
    have hxK : t.getD p 0 < cGet (cli ++ [V]) (nClusters (cli ++ [V])) := by
      rw [nClusters_append, cGet_append_last]
      exact hxV
    rcases cluster_exists hv hx hxK with ⟨i, hiK, hmi⟩
    have hiK' : i < cli.length := by rwa [nClusters_append] at hiK
    have hmiss : ∀ j < cli.length, j ≠ i →
        clusterMask (cli ++ [V]) j (t.getD p 0) = false := by
      intro j hj hne
      cases hmj : clusterMask (cli ++ [V]) j (t.getD p 0) with
      | false => rfl
      | true =>
          exact absurd (cluster_unique hv (by rwa [nClusters_append]) hiK hmj hmi) hne
    refine ⟨i, hiK', hmi, hmiss, ?_⟩
    rw [← hc0]
    refine remapHead_getD_hit (cli ++ [V + 1]) t p i hp
      (by rw [nClusters_append]; exact hiK') ?_ ?_
    · rw [clusterMask_bump_agree hxV (Nat.le_succ V) hiK']
      exact hmi
    · intro j hij hj
      have hj' : j < cli.length := by rwa [nClusters_append] at hj
      rw [clusterMask_bump_agree hxV (Nat.le_succ V) hj']
      exact hmiss j hj' (by omega)

/-- Unfolding `AdaptiveLoss.forward` on the shape actually produced by the
decoder: a head matrix followed by the tail slots. -/
theorem adaptiveLossForward_cons (L : List ℕ) (M0 : Mat)
    (rest : List (Option Mat)) (t : List ℕ) :
    adaptiveLossForward L (Option.some M0 :: rest) t =
      (slotSum (Option.some (remapTarget L t).1 :: (remapTarget L t).2)
        (Option.some M0 :: rest) 0).map (fun s => s / (M0.rows.length : ℝ)) := rfl

/-- The training step evaluates, slot by slot, to the head cross-entropy on
the remapped targets plus each non-empty cluster's tail cross-entropy on its
local ids, all divided by the batch size (sum-reductions throughout). -/
theorem trainStep_eval_structural (m : AdaptiveSoftmax) (cli : List ℕ) (V : ℕ)
    (hs : List Vec) (t : List ℕ)
    (hm : m.cutoff = cli ++ [V]) (hv : ValidCutoffs (cli ++ [V]))
    (hlen : t.length = hs.length) (hN : hs.length ≠ 0) (ht : ∀ x ∈ t, x < V) :
    trainStep m (cli ++ [V + 1]) hs t =
      Except.ok (((((hs.map (headOut m)).zip (remapHead (cli ++ [V + 1]) t)).map
            (fun rt => -(logSoftmax (outputSize (cli ++ [V])) rt.1 rt.2))).sum +
          ∑ i in Finset.range cli.length,
            (if selIdx (cli ++ [V]) t i = [] then 0 else
              ((((selIdx (cli ++ [V]) t i).map (fun p => tailOut m i (hs.getD p zeroVec))).zip
                  ((selIdx (cli ++ [V]) t i).map (fun p => t.getD p 0 - cGet (cli ++ [V]) i))).map
                (fun rt =>
                  -(logSoftmax (cGet (cli ++ [V]) (i + 1) - cGet (cli ++ [V]) i) rt.1 rt.2))).sum)) /
        (hs.length : ℝ)) := by
  have hcli : 1 ≤ cli.length := by
    have h1 := hv.1
    rw [List.length_append] at h1
    simpa using h1
  have hKm : nClusters m.cutoff = cli.length := by rw [hm, nClusters_append]
  have hos : outputSize m.cutoff = cGet (cli ++ [V]) 0 + cli.length := by
    unfold outputSize
    rw [hm, nClusters_append]
  have hrhlen : (remapHead (cli ++ [V + 1]) t).length = hs.length := by
    rw [remapHead_length]
    exact hlen
  have hAlen : (asForward m hs t).length = nClusters m.cutoff + 1 := by
    simp [asForward]
  -- per-slot evaluations
  have hok : ∀ j, j < (asForward m hs t).length →
      evalSlot ((asForward m hs t).getD j none)
        ((Option.some (remapHead (cli ++ [V + 1]) t) ::
          remapLocals (cli ++ [V + 1]) t).getD j none) =
      Except.ok ((fun j : ℕ =>
        match j with
        | 0 => (((hs.map (headOut m)).zip (remapHead (cli ++ [V + 1]) t)).map
            (fun rt => -(logSoftmax (outputSize (cli ++ [V])) rt.1 rt.2))).sum
        | i + 1 => if selIdx (cli ++ [V]) t i = [] then 0 else
            ((((selIdx (cli ++ [V]) t i).map (fun p => tailOut m i (hs.getD p zeroVec))).zip
                ((selIdx (cli ++ [V]) t i).map (fun p => t.getD p 0 - cGet (cli ++ [V]) i))).map
              (fun rt =>
                -(logSoftmax (cGet (cli ++ [V]) (i + 1) - cGet (cli ++ [V]) i) rt.1 rt.2))).sum) j) := by
    intro j hj
    match j with
    | 0 =>
        show evalSlot (Option.some ⟨outputSize m.cutoff, hs.map (headOut m)⟩)
            (Option.some (remapHead (cli ++ [V + 1]) t)) =
          Except.ok ((((hs.map (headOut m)).zip (remapHead (cli ++ [V + 1]) t)).map
            (fun rt => -(logSoftmax (outputSize (cli ++ [V])) rt.1 rt.2))).sum)
        rw [evalSlot_ok (outputSize m.cutoff) (hs.map (headOut m))
          (remapHead (cli ++ [V + 1]) t)
          (by rw [List.length_map, hrhlen])
          (by
            intro hc
            apply hN
            rw [← hrhlen, hc]
            rfl)
          (by
            intro x hx
            rcases List.mem_iff_getElem.mp hx with ⟨p, hpr, rfl⟩
            have hpt : p < t.length := by
              rw [hlen, ← hrhlen]
              exact hpr
            rw [← List.getD_eq_getElem (remapHead (cli ++ [V + 1]) t) 0 hpr]
            rcases remap_cases cli V t hv ht p hpt with ⟨hxlt, heq, _⟩ | ⟨i, hi, _, _, heq⟩
            · rw [heq, hos]
              omega
            · rw [heq, hos]
              omega)]
        rw [hm]
    | i + 1 =>
        have hi' : i < cli.length := by
          rw [hAlen, hKm] at hj
          omega
        have hiK : i < nClusters m.cutoff := by rw [hKm]; exact hi'
        rw [List.getD_cons_succ, asForward_getD_tail m hs t i hiK]
        show evalSlot _ _ =
          Except.ok (if selIdx (cli ++ [V]) t i = [] then 0 else
            ((((selIdx (cli ++ [V]) t i).map (fun p => tailOut m i (hs.getD p zeroVec))).zip
                ((selIdx (cli ++ [V]) t i).map (fun p => t.getD p 0 - cGet (cli ++ [V]) i))).map
              (fun rt =>
                -(logSoftmax (cGet (cli ++ [V]) (i + 1) - cGet (cli ++ [V]) i) rt.1 rt.2))).sum)
        rw [hm]
        rw [hm] at hiK
        by_cases hE : selIdx (cli ++ [V]) t i = []
        · rw [if_pos (by rw [hE]; rfl), if_pos hE]
          rfl
        · rw [if_neg (by simpa using hE), if_neg hE]
          have hloc : (remapLocals (cli ++ [V + 1]) t).getD i none =
              Option.some ((selIdx (cli ++ [V]) t i).map
                (fun p => t.getD p 0 - cGet (cli ++ [V]) i)) := by
            rw [remapLocals_getD _ _ i (by rw [nClusters_append]; exact hi')]
            rw [loss_filter_eq cli V t ht i hi']
            rw [if_neg (by simpa [List.map_eq_nil_iff] using hE)]
            rw [List.map_map]
            have hcg : cGet (cli ++ [V + 1]) i = cGet (cli ++ [V]) i := by
              rw [cGet_append_lt _ _ _ hi', cGet_append_lt _ _ _ hi']
            rw [hcg]
            rfl
          rw [hloc]
          rw [evalSlot_ok (cGet (cli ++ [V]) (i + 1) - cGet (cli ++ [V]) i)
            ((selIdx (cli ++ [V]) t i).map (fun p => tailOut m i (hs.getD p zeroVec)))
            ((selIdx (cli ++ [V]) t i).map (fun p => t.getD p 0 - cGet (cli ++ [V]) i))
            (by rw [List.length_map, List.length_map])
            (by simpa [List.map_eq_nil_iff] using hE)
            (by
              intro x hx
              rcases List.mem_map.mp hx with ⟨p, hps, rfl⟩
              have hmask := (List.mem_filter.mp hps).2
              rcases (clusterMask_iff _ _ _).mp hmask with ⟨h1, h2⟩
              omega)]
  -- assemble the loop
  have hBlen : (asForward m hs t).length =
      (Option.some (remapHead (cli ++ [V + 1]) t) ::
        remapLocals (cli ++ [V + 1]) t).length := by
    rw [hAlen]
    simp [remapLocals, hKm, nClusters_append]
  have hsum := slotSum_ok (asForward m hs t) _ _ hBlen hok
  unfold trainStep
  have hI : asForward m hs t = Option.some (⟨outputSize m.cutoff, hs.map (headOut m)⟩ : Mat) ::
      (List.range (nClusters m.cutoff)).map (fun i =>
        if (selIdx m.cutoff t i).isEmpty then none
        else Option.some ⟨cGet m.cutoff (i + 1) - cGet m.cutoff i,
          (selIdx m.cutoff t i).map (fun p => tailOut m i (hs.getD p zeroVec))⟩) := rfl
  rw [hI, adaptiveLossForward_cons, ← hI]
  simp only [remapTarget] at hsum ⊢
  rw [hsum]
  simp only [Except.map, List.length_map]
  rw [hAlen, hKm, Finset.sum_range_succ', add_comm]

/-- The accumulated loss numerator is the per-position sum of the negated
dense log-probabilities: the additive decomposition
`-log P(target) = -log P_head(route) - log P_tail(target | route)`. -/
theorem structural_eq_logProb (m : AdaptiveSoftmax) (cli : List ℕ) (V : ℕ)
    (hs : List Vec) (t : List ℕ)
    (hm : m.cutoff = cli ++ [V]) (hv : ValidCutoffs (cli ++ [V]))
    (hlen : t.length = hs.length) (ht : ∀ x ∈ t, x < V) :
    (((hs.map (headOut m)).zip (remapHead (cli ++ [V + 1]) t)).map
        (fun rt => -(logSoftmax (outputSize (cli ++ [V])) rt.1 rt.2))).sum +
      ∑ i in Finset.range cli.length,
        (if selIdx (cli ++ [V]) t i = [] then 0 else
          ((((selIdx (cli ++ [V]) t i).map (fun p => tailOut m i (hs.getD p zeroVec))).zip
              ((selIdx (cli ++ [V]) t i).map (fun p => t.getD p 0 - cGet (cli ++ [V]) i))).map
            (fun rt =>
              -(logSoftmax (cGet (cli ++ [V]) (i + 1) - cGet (cli ++ [V]) i) rt.1 rt.2))).sum) =
    ∑ p in Finset.range hs.length, -(logProbRow m (hs.getD p zeroVec) (t.getD p 0)) := by
  have hv' : ValidCutoffs m.cutoff := by rw [hm]; exact hv
  have hrhlen : (remapHead (cli ++ [V + 1]) t).length = hs.length := by
    rw [remapHead_length]
    exact hlen
  have hhead : (((hs.map (headOut m)).zip (remapHead (cli ++ [V + 1]) t)).map
      (fun rt => -(logSoftmax (outputSize (cli ++ [V])) rt.1 rt.2))).sum =
      ∑ p in Finset.range hs.length,
        -(logSoftmax (outputSize (cli ++ [V])) (headOut m (hs.getD p zeroVec))
          ((remapHead (cli ++ [V + 1]) t).getD p 0)) := by
    rw [zip_eq_range_map zeroVec 0 (hs.map (headOut m)) (remapHead (cli ++ [V + 1]) t)
      (by rw [List.length_map, hrhlen]), List.length_map, List.map_map, range_map_sum]
    refine Finset.sum_congr rfl ?_
    intro p hp
    simp only [Function.comp_def]
    rw [getD_map_lt (headOut m) hs p (Finset.mem_range.mp hp) zeroVec zeroVec]
  have htail : ∀ i ∈ Finset.range cli.length,
      (if selIdx (cli ++ [V]) t i = [] then (0 : ℝ) else
        ((((selIdx (cli ++ [V]) t i).map (fun p => tailOut m i (hs.getD p zeroVec))).zip
            ((selIdx (cli ++ [V]) t i).map (fun p => t.getD p 0 - cGet (cli ++ [V]) i))).map
          (fun rt =>
            -(logSoftmax (cGet (cli ++ [V]) (i + 1) - cGet (cli ++ [V]) i) rt.1 rt.2))).sum) =
      ∑ p in Finset.range hs.length,
        (if clusterMask (cli ++ [V]) i (t.getD p 0) then
          -(logSoftmax (cGet (cli ++ [V]) (i + 1) - cGet (cli ++ [V]) i)
            (tailOut m i (hs.getD p zeroVec)) (t.getD p 0 - cGet (cli ++ [V]) i)) else 0) := by
    intro i _
    by_cases hE : selIdx (cli ++ [V]) t i = []
    · rw [if_pos hE]
      symm
      apply Finset.sum_eq_zero
      intro p hp
      have hmf : ¬ (clusterMask (cli ++ [V]) i (t.getD p 0) = true) := by
        have hall := List.filter_eq_nil_iff.mp hE
        intro hmt
        exact hall p (List.mem_range.mpr (by
          rw [hlen]
          exact Finset.mem_range.mp hp)) hmt
      rw [if_neg hmf]
    · rw [if_neg hE,
        zip_map_map (fun p => tailOut m i (hs.getD p zeroVec))
          (fun p => t.getD p 0 - cGet (cli ++ [V]) i)
          (fun rt =>
            -(logSoftmax (cGet (cli ++ [V]) (i + 1) - cGet (cli ++ [V]) i) rt.1 rt.2))
          (selIdx (cli ++ [V]) t i)]
      simp only [selIdx]
      rw [filter_range_map_sum, hlen]
  rw [hhead, Finset.sum_congr rfl htail, Finset.sum_comm, ← Finset.sum_add_distrib]
  refine Finset.sum_congr rfl ?_
  intro p hp
  have hpt : p < t.length := by
    rw [hlen]
    exact Finset.mem_range.mp hp
  rcases remap_cases cli V t hv ht p hpt with
    ⟨hxlt, heq, hmasks⟩ | ⟨i, hi, hmi, hmiss, heq⟩
  · rw [heq]
    have hz : ∑ i in Finset.range cli.length,
        (if clusterMask (cli ++ [V]) i (t.getD p 0) then
          -(logSoftmax (cGet (cli ++ [V]) (i + 1) - cGet (cli ++ [V]) i)
            (tailOut m i (hs.getD p zeroVec)) (t.getD p 0 - cGet (cli ++ [V]) i)) else 0) = 0 := by
      apply Finset.sum_eq_zero
      intro i hiK
      rw [if_neg (by simpa using hmasks i (Finset.mem_range.mp hiK))]
    rw [hz, add_zero, logProbRow_eq_head hv' (hs.getD p zeroVec) (by rw [hm]; exact hxlt)]
    simp only [headLsm, hm]
  · rw [heq]
    have hone : ∑ j in Finset.range cli.length,
        (if clusterMask (cli ++ [V]) j (t.getD p 0) then
          -(logSoftmax (cGet (cli ++ [V]) (j + 1) - cGet (cli ++ [V]) j)
            (tailOut m j (hs.getD p zeroVec)) (t.getD p 0 - cGet (cli ++ [V]) j)) else 0) =
        -(logSoftmax (cGet (cli ++ [V]) (i + 1) - cGet (cli ++ [V]) i)
            (tailOut m i (hs.getD p zeroVec)) (t.getD p 0 - cGet (cli ++ [V]) i)) := by
      refine Finset.sum_eq_single_of_mem i (Finset.mem_range.mpr hi) ?_ |>.trans ?_
      · intro j hj hne
        rw [if_neg (by simpa using hmiss j (Finset.mem_range.mp hj) hne)]
      · rw [if_pos hmi]
    rw [hone]
    rcases (clusterMask_iff _ _ _).mp hmi with ⟨hlo, hhi⟩
    rw [logProbRow_eq_cluster hv' (hs.getD p zeroVec)
      (by rw [hm, nClusters_append]; exact hi)
      (by rw [hm]; exact hlo) (by rw [hm]; exact hhi)]
    simp only [headLsm, tailLsm, hm, neg_add]

/-- C3: with the pairing built by `main.py` (softmax cutoffs `[..., V]`, loss
cutoffs `[..., V+1]`), the scalar of `AdaptiveLoss.forward` equals the
sum-reduction head cross-entropy on the remapped targets plus each routed
cluster's sum-reduction tail cross-entropy on its local ids, divided by the
batch size — and this equals the batch mean of `-log P(target)` under the
dense log-probability decomposition of `log_prob`. -/
theorem C3_adaptive_loss_decomposition (m : AdaptiveSoftmax) (cli : List ℕ)
    (V : ℕ) (hs : List Vec) (t : List ℕ)
    (hm : m.cutoff = cli ++ [V]) (hv : ValidCutoffs (cli ++ [V]))
    (hlen : t.length = hs.length) (hN : hs.length ≠ 0) (ht : ∀ x ∈ t, x < V) :
    trainStep m (cli ++ [V + 1]) hs t =
      Except.ok (((((hs.map (headOut m)).zip (remapHead (cli ++ [V + 1]) t)).map
            (fun rt => -(logSoftmax (outputSize (cli ++ [V])) rt.1 rt.2))).sum +
          ∑ i in Finset.range cli.length,
            (if selIdx (cli ++ [V]) t i = [] then 0 else
              ((((selIdx (cli ++ [V]) t i).map (fun p => tailOut m i (hs.getD p zeroVec))).zip
                  ((selIdx (cli ++ [V]) t i).map (fun p => t.getD p 0 - cGet (cli ++ [V]) i))).map
                (fun rt =>
                  -(logSoftmax (cGet (cli ++ [V]) (i + 1) - cGet (cli ++ [V]) i) rt.1 rt.2))).sum)) /
        (hs.length : ℝ)) ∧
    trainStep m (cli ++ [V + 1]) hs t =
      Except.ok ((∑ p in Finset.range hs.length,
          -(logProbRow m (hs.getD p zeroVec) (t.getD p 0))) / (hs.length : ℝ)) := by
  refine ⟨trainStep_eval_structural m cli V hs t hm hv hlen hN ht, ?_⟩
  rw [trainStep_eval_structural m cli V hs t hm hv hlen hN ht,
    structural_eq_logProb m cli V hs t hm hv hlen ht]

/-- Witness for C3: a batch of one routed target through a concrete
two-token model. -/
theorem C3_adaptive_loss_decomposition_witness :
    let m0 : AdaptiveSoftmax :=
      ⟨1, [1, 2], fun _ => zeroVec, zeroVec, fun _ _ => zeroVec, fun _ _ => zeroVec⟩
    ∃ v, trainStep m0 ([1] ++ [2 + 1]) [zeroVec] [1] = Except.ok v :=
  ⟨_, (C3_adaptive_loss_decomposition _ [1] 2 [zeroVec] [1] rfl (by decide)
    (by simp) (by simp) (by decide)).2⟩

/-- C4, amended: for an all-head-band batch the adaptive loss is the plain
mean cross-entropy of the raw targets against the full head logits (all
`c0 + K` columns) — not against their first `c0` columns only. -/
theorem C4_head_band_loss (m : AdaptiveSoftmax) (cli : List ℕ) (V : ℕ)
    (hs : List Vec) (t : List ℕ)
    (hm : m.cutoff = cli ++ [V]) (hv : ValidCutoffs (cli ++ [V]))
    (hlen : t.length = hs.length) (hN : hs.length ≠ 0)
    (hx : ∀ x ∈ t, x < cGet (cli ++ [V]) 0) :
    trainStep m (cli ++ [V + 1]) hs t =
      Except.ok ((((hs.map (headOut m)).zip t).map
        (fun rt => -(logSoftmax (outputSize (cli ++ [V])) rt.1 rt.2))).sum /
          (hs.length : ℝ)) := by
  have hK1 : 1 ≤ nClusters (cli ++ [V]) := by
    have := hv.1
    unfold nClusters
    omega
  have hc0V : cGet (cli ++ [V]) 0 < cGet (cli ++ [V]) (nClusters (cli ++ [V])) :=
    cGet_lt hv (Nat.lt_of_lt_of_le Nat.zero_lt_one hK1) le_rfl
  have hVlast : cGet (cli ++ [V]) (nClusters (cli ++ [V])) = V := by
    rw [nClusters_append]
    exact cGet_append_last cli V
  have ht : ∀ x ∈ t, x < V := by
    intro x hxt
    have := hx x hxt
    omega
  have hvL : ValidCutoffs (cli ++ [V + 1]) := valid_bump hv (Nat.le_succ V)
  have hcli : 1 ≤ cli.length := by
    have h1 := hv.1
    rw [List.length_append] at h1
    simpa using h1
  have hc0L : cGet (cli ++ [V + 1]) 0 = cGet (cli ++ [V]) 0 := by
    rw [cGet_append_lt _ _ 0 hcli, cGet_append_lt _ _ 0 hcli]
  have hrh : remapHead (cli ++ [V + 1]) t = t := by
    have hlrh := remapHead_length (cli ++ [V + 1]) t
    apply List.ext_getElem (by rw [hlrh])
    intro p hp1 hp2
    rw [← List.getD_eq_getElem (remapHead (cli ++ [V + 1]) t) 0 hp1,
      ← List.getD_eq_getElem t 0 hp2]
    apply remapHead_getD_none _ _ _ hp2
    intro j hj
    apply clusterMask_head hvL hj
    rw [hc0L]
    apply hx
    rw [List.getD_eq_getElem t 0 hp2]
    exact List.getElem_mem _
  have hsel : ∀ i < cli.length, selIdx (cli ++ [V]) t i = [] := by
    intro i hi
    apply List.filter_eq_nil_iff.mpr
    intro p hpr
    have hpt : p < t.length := List.mem_range.mp hpr
    intro hmt
    have hxm : t.getD p 0 < cGet (cli ++ [V]) 0 := by
      apply hx
      rw [List.getD_eq_getElem t 0 hpt]
      exact List.getElem_mem _
    have := clusterMask_head hv (by rw [nClusters_append]; exact hi) hxm
    rw [this] at hmt
    exact Bool.false_ne_true hmt
  rw [trainStep_eval_structural m cli V hs t hm hv hlen hN ht, hrh]
  have hz : ∑ i in Finset.range cli.length,
      (if selIdx (cli ++ [V]) t i = [] then (0 : ℝ) else
        ((((selIdx (cli ++ [V]) t i).map (fun p => tailOut m i (hs.getD p zeroVec))).zip
            ((selIdx (cli ++ [V]) t i).map (fun p => t.getD p 0 - cGet (cli ++ [V]) i))).map
          (fun rt =>
            -(logSoftmax (cGet (cli ++ [V]) (i + 1) - cGet (cli ++ [V]) i) rt.1 rt.2))).sum) = 0 := by
    apply Finset.sum_eq_zero
    intro i hi
    rw [if_pos (hsel i (Finset.mem_range.mp hi))]
  rw [hz, add_zero]

/-- Witness for the amended C4: a one-row head-band batch through a concrete
two-token model. -/
theorem C4_head_band_loss_witness :
    let m0 : AdaptiveSoftmax :=
      ⟨1, [1, 2], fun _ => zeroVec, zeroVec, fun _ _ => zeroVec, fun _ _ => zeroVec⟩
    ∃ v, trainStep m0 ([1] ++ [2 + 1]) [zeroVec] [0] = Except.ok v :=
  ⟨_, C4_head_band_loss _ [1] 2 [zeroVec] [0] rfl (by decide)
    (by simp) (by simp) (by decide)⟩

/-- C4, counterexample: with cutoffs `[1, 2]` (head band `{0}`, one cluster
`{1}`), zero weights, and the single head-band target `0`, the adaptive loss
is `log 2` (softmax over the full `c0 + K = 2` head columns), while the
spec's plain cross-entropy on the first `c0 = 1` head columns is `0`. -/
theorem C4_head_band_counterexample :
    trainStep ⟨1, [1, 2], fun _ => zeroVec, zeroVec, fun _ _ => zeroVec, fun _ _ => zeroVec⟩
        ([1] ++ [2 + 1]) [zeroVec] [0] = Except.ok (Real.log 2) ∧
    specPlainHeadCE
        ⟨1, [1, 2], fun _ => zeroVec, zeroVec, fun _ _ => zeroVec, fun _ _ => zeroVec⟩
        [zeroVec] [0] = 0 ∧
    Real.log 2 ≠ 0 := by
  refine ⟨?_, ?_, ne_of_gt (Real.log_pos (by norm_num))⟩
  · rw [trainStep_eval_structural
      ⟨1, [1, 2], fun _ => zeroVec, zeroVec, fun _ _ => zeroVec, fun _ _ => zeroVec⟩
      [1] 2 [zeroVec] [0] rfl (by decide) (by simp) (by simp) (by decide)]
    have hrh : remapHead ([1] ++ [2 + 1]) [0] = [0] := by decide
    have hsel : selIdx ([1] ++ [2]) [0] 0 = [] := by decide
    rw [hrh]
    norm_num [Finset.sum_range_succ, Finset.sum_range_zero, hsel, logSoftmax,
      outputSize, cGet, nClusters, headOut, dotRange, zeroVec, Real.exp_zero]
  · norm_num [specPlainHeadCE, logSoftmax, cGet, headOut, dotRange, zeroVec,
      Real.exp_zero, Real.log_one, Finset.sum_range_succ, Finset.sum_range_zero]

/-- C9: a target equal to `V = 10` (out of vocabulary range) is routed by the
loss's remapping (cutoffs `[4, 11]`) to the single cluster with local id
`6`, which is outside the tail's local-id range `[0, 6)` — yet the training
step neither trips the assert nor raises: `set_target` (cutoffs `[4, 10]`)
silently drops the position, the tail slot is `None`, and the loss returns a
normal head-only value `log 5`. -/
theorem C9_out_of_range_target_not_aborted :
    (remapLocals [4, 11] [10]).getD 0 none = Option.some [6] ∧
    ¬ (6 < cGet [4, 10] (0 + 1) - cGet [4, 10] 0) ∧
    trainStep ⟨1, [4, 10], fun _ => zeroVec, zeroVec, fun _ _ => zeroVec, fun _ _ => zeroVec⟩
        [4, 11] [zeroVec] [10] = Except.ok (Real.log 5) := by
  refine ⟨by decide, by decide, ?_⟩
  have hI : asForward
      ⟨1, [4, 10], fun _ => zeroVec, zeroVec, fun _ _ => zeroVec, fun _ _ => zeroVec⟩
      [zeroVec] [10] =
      [Option.some ⟨5, [headOut
        ⟨1, [4, 10], fun _ => zeroVec, zeroVec, fun _ _ => zeroVec, fun _ _ => zeroVec⟩
        zeroVec]⟩, none] := rfl
  unfold trainStep
  rw [hI, adaptiveLossForward_cons]
  have hrh : (remapTarget [4, 11] [10]).1 = [4] := by decide
  have hrl : (remapTarget [4, 11] [10]).2 = [Option.some [6]] := by decide
  rw [hrh, hrl]
  norm_num [slotSum, List.getD_cons_zero, List.getD_cons_succ, evalSlot, criterionSum,
    Except.bind, Except.map, logSoftmax, headOut, dotRange, zeroVec, Real.exp_zero,
    Finset.sum_range_succ, Finset.sum_range_zero]
  show Except.ok (Real.log 5 + 0) = Except.ok (Real.log 5)
  rw [add_zero]

/-- C5: a cluster that receives zero targets is skipped by the training
path: its `forward` slot is `None`, deleting that slot together with its
aligned target slot leaves the accumulated loss unchanged, and the final
loss value is unchanged under arbitrary modification of that cluster's tail
weights — the tail classifier is never invoked. -/
theorem C5_empty_cluster_skipped (m m' : AdaptiveSoftmax) (lossCut : List ℕ)
    (hs : List Vec) (t : List ℕ) (i : ℕ)
    (hi : i < nClusters m.cutoff)
    (hsel : selIdx m.cutoff t i = [])
    (hlencut : lossCut.length = m.cutoff.length)
    (hm1 : m'.nhid = m.nhid) (hm2 : m'.cutoff = m.cutoff)
    (hm3 : m'.headW = m.headW) (hm4 : m'.headB = m.headB)
    (hm5 : ∀ j, j ≠ i → m'.tailW1 j = m.tailW1 j)
    (hm6 : ∀ j, j ≠ i → m'.tailW2 j = m.tailW2 j) :
    (asForward m hs t).getD (i + 1) none = none ∧
    slotSum (Option.some (remapHead lossCut t) :: remapLocals lossCut t)
        (asForward m hs t) 0 =
      slotSum ((Option.some (remapHead lossCut t) :: remapLocals lossCut t).eraseIdx (i + 1))
        ((asForward m hs t).eraseIdx (i + 1)) 0 ∧
    trainStep m lossCut hs t = trainStep m' lossCut hs t := by
  have hslot : (asForward m hs t).getD (i + 1) none = none := by
    rw [asForward_getD_tail m hs t i hi, if_pos (by rw [hsel]; rfl)]
  have hget : (asForward m hs t).get? (i + 1) = some none := by
    have h1 : (asForward m hs t).get? (i + 1) =
        ((List.range (nClusters m.cutoff)).map (fun i =>
          if (selIdx m.cutoff t i).isEmpty then none
          else Option.some (⟨cGet m.cutoff (i + 1) - cGet m.cutoff i,
            (selIdx m.cutoff t i).map (fun p => tailOut m i (hs.getD p zeroVec))⟩ : Mat))).get?
          i := rfl
    rw [h1, List.get?_map, List.get?_range hi, Option.map_some']
    rw [if_pos (by rw [hsel]; rfl)]
  have hBA : (Option.some (remapHead lossCut t) :: remapLocals lossCut t).length =
      (asForward m hs t).length := by
    simp [asForward, remapLocals, nClusters, hlencut]
  have hHO : headOut m' = headOut m := by
    funext h j
    unfold headOut
    rw [hm1, hm3, hm4]
  have hTO : ∀ j, j ≠ i → tailOut m' j = tailOut m j := by
    intro j hj
    funext h k
    unfold tailOut
    rw [hm1, hm5 j hj, hm6 j hj]
  have hAF : asForward m' hs t = asForward m hs t := by
    unfold asForward
    rw [hm2, hHO]
    congr 1
    apply List.map_congr_left
    intro j hj
    by_cases hji : j = i
    · subst hji
      rw [if_pos (by rw [hsel]; rfl), if_pos (by rw [hsel]; rfl)]
    · simp only [hTO j hji]
  exact ⟨hslot, slotSum_erase (i + 1) _ _ hBA hget, by
    unfold trainStep
    rw [hAF]⟩

/-- Witness for C5: cutoffs `[4, 10]`, a single head-band target, and a
modification of the empty cluster's first tail layer. -/
theorem C5_empty_cluster_skipped_witness :
    (asForward ⟨1, [4, 10], fun _ => zeroVec, zeroVec, fun _ _ => zeroVec, fun _ _ => zeroVec⟩
      [zeroVec] [0]).getD (0 + 1) none = none ∧
    trainStep ⟨1, [4, 10], fun _ => zeroVec, zeroVec, fun _ _ => zeroVec, fun _ _ => zeroVec⟩
        [4, 11] [zeroVec] [0] =
      trainStep ⟨1, [4, 10], fun _ => zeroVec, zeroVec,
          fun j _ => if j = 0 then (fun _ => (1 : ℝ)) else zeroVec, fun _ _ => zeroVec⟩
        [4, 11] [zeroVec] [0] := by
  have h := C5_empty_cluster_skipped
    ⟨1, [4, 10], fun _ => zeroVec, zeroVec, fun _ _ => zeroVec, fun _ _ => zeroVec⟩
    ⟨1, [4, 10], fun _ => zeroVec, zeroVec,
      fun j _ => if j = 0 then (fun _ => (1 : ℝ)) else zeroVec, fun _ _ => zeroVec⟩
    [4, 11] [zeroVec] [0] 0 (by decide) (by decide) rfl rfl rfl rfl rfl
    (fun j hj => by funext k; exact if_neg hj) (fun j hj => rfl)
  exact ⟨h.1, h.2.2⟩

/-- C10: for in-range targets, `set_target` under the model's cutoffs
`[..., V]` and `remap_target` under the loss's cutoffs `[..., V+1]` (as
wired in `main.py`) select identical position sets per cluster, and the tail
logits slot of `forward` and the local-id slot of `remap_target` have equal
lengths, pairing position by position over the same ordered index set. -/
theorem C10_router_consistency (m : AdaptiveSoftmax) (hs : List Vec)
    (cli : List ℕ) (V : ℕ) (t : List ℕ)
    (hm : m.cutoff = cli ++ [V]) (ht : ∀ x ∈ t, x < V) :
    ∀ i < nClusters (cli ++ [V]),
      selIdx (cli ++ [V]) t i = selIdx (cli ++ [V + 1]) t i ∧
      (remapLocals (cli ++ [V + 1]) t).getD i none =
        (if (selIdx (cli ++ [V]) t i).isEmpty then none
         else Option.some ((selIdx (cli ++ [V]) t i).map
           (fun p => t.getD p 0 - cGet (cli ++ [V]) i))) ∧
      ((asForward m hs t).getD (i + 1) none).map (fun M => M.rows.length) =
        ((remapLocals (cli ++ [V + 1]) t).getD i none).map List.length := by
  intro i hi
  have hi' : i < cli.length := by rwa [nClusters_append] at hi
  have hloc : (remapLocals (cli ++ [V + 1]) t).getD i none =
      (if (selIdx (cli ++ [V]) t i).isEmpty then none
       else Option.some ((selIdx (cli ++ [V]) t i).map
         (fun p => t.getD p 0 - cGet (cli ++ [V]) i))) := by
    rw [remapLocals_getD _ _ i (by rw [nClusters_append]; exact hi'),
      loss_filter_eq cli V t ht i hi']
    have hcg : cGet (cli ++ [V + 1]) i = cGet (cli ++ [V]) i := by
      rw [cGet_append_lt _ _ _ hi', cGet_append_lt _ _ _ hi']
    rw [hcg, List.map_map]
    by_cases hE : selIdx (cli ++ [V]) t i = []
    · simp [hE]
    · rw [if_neg (by simpa [List.map_eq_nil_iff] using hE),
        if_neg (by simpa using hE)]
      rfl
  refine ⟨selIdx_bump_agree cli V t ht i hi', hloc, ?_⟩
  rw [asForward_getD_tail m hs t i (by rw [hm, nClusters_append]; exact hi'), hloc]
  simp only [hm]
  by_cases hE : selIdx (cli ++ [V]) t i = []
  · simp [hE]
  · rw [if_neg (by simpa using hE), if_neg (by simpa using hE)]
    simp

/-- Witness for C10: cutoffs `[4, 10]` versus loss cutoffs `[4, 11]` on the
batch `[5, 8]`. -/
theorem C10_router_consistency_witness :
    selIdx ([4] ++ [10]) [5, 8] 0 = selIdx ([4] ++ [10 + 1]) [5, 8] 0 :=
  (C10_router_consistency
    ⟨1, [4, 10], fun _ => zeroVec, zeroVec, fun _ _ => zeroVec, fun _ _ => zeroVec⟩
    [] [4] 10 [5, 8] rfl (by decide) 0 (by decide)).1

end Nets
